import Mathlib

/-!
# Shallow embedding of the `LRUMap` crate

This file embeds the two Rust source files of the repository
(`src/cache.rs` and `src/lib.rs`) as executable Lean definitions and
proves/refutes the specification claims about them.

Modelling conventions:
* `u16` slot indices become `Nat`.  Construction asserts `N < u16::MAX`
  (= 65535) and every index that ever arises is at most `N < 65535`, so no
  wrap-around is lost by this.
* Rust array indexing `self.entries[i]` panics when `i` is out of range;
  every operation that indexes is therefore modelled in the `Option` monad,
  `none` standing for a panic.
* `ArrayVec<Entry<T>, N>` becomes a `List (Entry T)`; its `capacity()` is the
  parameter `N`, its `len()` the list length.
* `HashMap<K, u16>` becomes an association list with at most one binding per
  key; `HashMap` iteration order is unspecified in Rust, the embedding fixes
  the insertion order.
* The Rust iterator `Iter` is lazy and, on a corrupted list, could in
  principle revisit slots forever; the embedding materialises it with
  `entries.len()` steps of fuel, which covers every run the well-formed
  chain can produce.
-/

/-- `Entry<T>` from `cache.rs`: a value together with its recency-list links. -/
structure Entry (T : Type) where
  val : T
  prev : Nat
  next : Nat
deriving DecidableEq, Repr

/-- `Cache<T, N>` from `cache.rs`: the array-embedded doubly linked list. -/
structure Cache (T : Type) (N : Nat) where
  entries : List (Entry T)
  head : Nat
  tail : Nat
deriving DecidableEq, Repr

namespace Cache

variable {T : Type} {N : Nat}

/-- `Cache::default`: empty cache; the `assert!(capacity < u16::MAX)` is
modelled by returning `none` (abort) when it fails. -/
def default (T : Type) (N : Nat) : Option (Cache T N) :=
  if N < 65535 then some { entries := [], head := 0, tail := 0 } else none

/-- `Cache::len`. -/
def len (c : Cache T N) : Nat := c.entries.length

/-- `Cache::clear`: clears the entries but (as in the source) leaves
`head` and `tail` untouched. -/
def clear (c : Cache T N) : Cache T N := { c with entries := [] }

/-- `Cache::pop_back`: unhook the tail, returning its index. -/
def popBack (c : Cache T N) : Option (Nat × Cache T N) := do
  let oldTail := c.tail
  let e ← c.entries.get? oldTail
  some (oldTail, { c with tail := e.prev })

/-- `Cache::remove`: unlink the entry at `idx` from the list.  The neighbour
reads/writes follow the source order: `prev`/`next` are read first, then the
head/`prev`-side patch, then the tail/`next`-side patch. -/
def remove (c : Cache T N) (idx : Nat) : Option (Cache T N) := do
  let e ← c.entries.get? idx
  let step₁ : Option (Cache T N) :=
    if idx = c.head then
      some { c with head := e.next }
    else
      (c.entries.get? e.prev).map fun ep =>
        { c with entries := c.entries.set e.prev { ep with next := e.next } }
  let c₁ ← step₁
  let step₂ : Option (Cache T N) :=
    if idx = c.tail then
      some { c₁ with tail := e.prev }
    else
      (c₁.entries.get? e.next).map fun en =>
        { c₁ with entries := c₁.entries.set e.next { en with prev := e.prev } }
  step₂

/-- `Cache::push_front`: relink the entry at `idx` as the new head. -/
def pushFront (c : Cache T N) (idx : Nat) : Option (Cache T N) := do
  let step : Option (Cache T N) :=
    if c.entries.length = 1 then
      some { c with tail := idx }
    else
      (c.entries.get? idx).bind fun ei =>
        let c' : Cache T N :=
          { c with entries := c.entries.set idx { ei with next := c.head } }
        (c'.entries.get? c.head).map fun eh =>
          { c' with entries := c'.entries.set c.head { eh with prev := idx } }
  let c₁ ← step
  some { c₁ with head := idx }

/-- `Cache::insert`: push a fresh entry when below capacity, otherwise evict
the tail slot in place; the new/reused slot becomes the head. -/
def insert (c : Cache T N) (val : T) : Option (Cache T N) := do
  let entry : Entry T := { val := val, prev := 0, next := 0 }
  let step : Option (Nat × Cache T N) :=
    if c.entries.length = N then
      c.popBack.map fun p =>
        (p.1, { p.2 with entries := p.2.entries.set p.1 entry })
    else
      some (c.entries.length, { c with entries := c.entries ++ [entry] })
  let r ← step
  r.2.pushFront r.1

/-- `Cache::touch_index`: promote `idx` to the head unless it already is. -/
def touchIndex (c : Cache T N) (idx : Nat) : Option (Cache T N) :=
  if idx = c.head then some c
  else do
    let c₁ ← c.remove idx
    c₁.pushFront idx

/-- `Cache::replace`: touch `idx`, then swap in the new value, returning the
old one. -/
def replace (c : Cache T N) (idx : Nat) (val : T) : Option (T × Cache T N) := do
  let c₁ ← c.touchIndex idx
  let e ← c₁.entries.get? idx
  some (e.val, { c₁ with entries := c₁.entries.set idx { e with val := val } })

/-- `Cache::get`: touch `idx` and return its value. -/
def get (c : Cache T N) (idx : Nat) : Option (T × Cache T N) := do
  let c₁ ← c.touchIndex idx
  let e ← c₁.entries.get? idx
  some (e.val, c₁)

end Cache

/-- The `Iter` state from `cache.rs` (the borrowed cache is passed to
`Iter.next` separately, mirroring the shared reference). -/
structure Iter (T : Type) (N : Nat) where
  pos : Nat
deriving DecidableEq, Repr

/-- `Iterator::next for Iter`: yield the entry at `pos`, then step to
`entry.next`, or to the out-of-range sentinel `N` when `pos` was the tail. -/
def Iter.next {T : Type} {N : Nat} (c : Cache T N) (it : Iter T N) :
    Option (T × Iter T N) := do
  let entry ← c.entries.get? it.pos
  let newPos := if it.pos = c.tail then N else entry.next
  some (entry.val, { pos := newPos })

/-- `Cache::iter`: an iterator starting at the head. -/
def Cache.iter {T : Type} {N : Nat} (c : Cache T N) : Iter T N :=
  { pos := c.head }

/-- Materialise the lazy iterator with the given amount of fuel. -/
def iterFuel {T : Type} {N : Nat} (c : Cache T N) : Nat → Iter T N → List T
  | 0, _ => []
  | fuel + 1, it =>
    match Iter.next c it with
    | none => []
    | some (v, it') => v :: iterFuel c fuel it'

/-- The full contents of the iterator; `entries.len()` steps of fuel suffice
for every chain the structure can hold. -/
def Cache.iterate {T : Type} {N : Nat} (c : Cache T N) : List T :=
  iterFuel c c.entries.length c.iter

section AList

variable {K : Type} [DecidableEq K]

/-- `HashMap::get` on the association-list model. -/
def alistLookup : List (K × Nat) → K → Option Nat
  | [], _ => none
  | (k', i) :: rest, k => if k' = k then some i else alistLookup rest k

/-- `HashMap::insert` on the association-list model: replace in place if the
key is bound, otherwise append. -/
def alistInsert : List (K × Nat) → K → Nat → List (K × Nat)
  | [], k, i => [(k, i)]
  | (k', i') :: rest, k, i =>
    if k' = k then (k, i) :: rest else (k', i') :: alistInsert rest k i

/-- `HashMap::remove` on the association-list model: the removed binding (if
any) together with the remaining list. -/
def alistRemove : List (K × Nat) → K → Option Nat × List (K × Nat)
  | [], _ => (none, [])
  | (k', i') :: rest, k =>
    if k' = k then (some i', rest)
    else
      let r := alistRemove rest k
      (r.1, (k', i') :: r.2)

end AList

/-- `LRUMap<K, T, N>` from `lib.rs`. -/
structure LRUMap (K T : Type) (N : Nat) where
  cache : Cache (K × T) N
  indices : List (K × Nat)
deriving DecidableEq, Repr

namespace LRUMap

variable {K T : Type} {N : Nat} [DecidableEq K]

/-- Derived `LRUMap::default`: `Cache::default` plus an empty hash index. -/
def default (K T : Type) (N : Nat) : Option (LRUMap K T N) :=
  (Cache.default (K × T) N).map fun c => { cache := c, indices := [] }

/-- `LRUMap::put`. -/
def put (m : LRUMap K T N) (key : K) (value : T) :
    Option (Option T × LRUMap K T N) :=
  match alistLookup m.indices key with
  | none => do
      let c ← m.cache.insert (key, value)
      some (none, { cache := c, indices := alistInsert m.indices key c.head })
  | some idx => do
      let (old, c) ← m.cache.replace idx (key, value)
      some (some old.2, { m with cache := c })

/-- `LRUMap::get`. -/
def get (m : LRUMap K T N) (key : K) : Option (Option T × LRUMap K T N) :=
  match alistLookup m.indices key with
  | none => some (none, m)
  | some idx => do
      let (v, c) ← m.cache.get idx
      some (some v.2, { m with cache := c })

/-- `LRUMap::remove_one`. -/
def remove_one (m : LRUMap K T N) (key : K) : Option (LRUMap K T N) :=
  match alistRemove m.indices key with
  | (none, _) => some m
  | (some idx, ind) => do
      let c ← m.cache.remove idx
      some { cache := c, indices := ind }

/-- The loop body of `LRUMap::remove`: walk the old index, dropping matching
keys (and unlinking their slots) and re-inserting the others. -/
def removeLoop : List (K × Nat) → (K → Bool) → Cache (K × T) N →
    List (K × Nat) → Option (Cache (K × T) N × List (K × Nat))
  | [], _, c, acc => some (c, acc)
  | (k, i) :: rest, pred, c, acc =>
    if pred k then do
      let c' ← c.remove i
      removeLoop rest pred c' acc
    else
      removeLoop rest pred c (alistInsert acc k i)

/-- `LRUMap::remove` (predicate-based bulk removal). -/
def remove (m : LRUMap K T N) (pred : K → Bool) : Option (LRUMap K T N) := do
  let r ← removeLoop m.indices pred m.cache []
  some { cache := r.1, indices := r.2 }

/-- The loop body of `LRUMap::touch`. -/
def touchLoop : List (K × Nat) → (K → Bool) → Cache (K × T) N →
    Option (Cache (K × T) N)
  | [], _, c => some c
  | (k, i) :: rest, pred, c =>
    if pred k then do
      let c' ← c.touchIndex i
      touchLoop rest pred c'
    else
      touchLoop rest pred c

/-- `LRUMap::touch` (predicate-based bulk touch). -/
def touch (m : LRUMap K T N) (pred : K → Bool) : Option (LRUMap K T N) := do
  let c ← touchLoop m.indices pred m.cache
  some { m with cache := c }

/-- `LRUMap::clear`. -/
def clear (m : LRUMap K T N) : LRUMap K T N :=
  { cache := m.cache.clear, indices := [] }

/-- `LRUMap::len`. -/
def len (m : LRUMap K T N) : Nat := m.cache.len

/-- `LRUMap::iter`, fully materialised: the (key, value) pairs in
most-recent-first order. -/
def iterate (m : LRUMap K T N) : List (K × T) := m.cache.iterate

/-- The keys yielded by `iterate`, in order. -/
def iterateKeys (m : LRUMap K T N) : List K := m.iterate.map Prod.fst

end LRUMap

/-- Run a list of `put` calls in order. -/
def putList {K T : Type} {N : Nat} [DecidableEq K] :
    List (K × T) → LRUMap K T N → Option (LRUMap K T N)
  | [], m => some m
  | (k, v) :: rest, m => do
      let r ← m.put k v
      putList rest r.2

/-- The slot indices visited by the iterator (same walk as `iterate`, but
recording positions): these are the occupied slots of the recency list. -/
def iterPosFuel {T : Type} {N : Nat} (c : Cache T N) : Nat → Nat → List Nat
  | 0, _ => []
  | fuel + 1, pos =>
    match c.entries.get? pos with
    | none => []
    | some e => pos :: iterPosFuel c fuel (if pos = c.tail then N else e.next)

/-- The occupied slot indices, head to tail. -/
def Cache.occupied {T : Type} {N : Nat} (c : Cache T N) : List Nat :=
  iterPosFuel c c.entries.length c.head

/-- The bidirectional index/slot consistency invariant of the spec: every
hash-index binding points to a slot storing that key, and every occupied
slot's key is in the hash index bound to that slot's own index. -/
def IndexConsistentB {K T : Type} {N : Nat} [DecidableEq K]
    (m : LRUMap K T N) : Bool :=
  (m.indices.all fun p =>
    match m.cache.entries.get? p.2 with
    | some e => decide (e.val.1 = p.1)
    | none => false) &&
  (m.cache.occupied.all fun i =>
    match m.cache.entries.get? i with
    | some e => decide (alistLookup m.indices e.val.1 = some i)
    | none => false)

/-- A freshly constructed map of capacity 1 over `Nat` keys and values. -/
def empty1 : LRUMap Nat Nat 1 :=
  { cache := { entries := [], head := 0, tail := 0 }, indices := [] }

/-- A freshly constructed map of capacity 2 over `Nat` keys and values. -/
def empty2 : LRUMap Nat Nat 2 :=
  { cache := { entries := [], head := 0, tail := 0 }, indices := [] }

/-- The state reached from `empty1` by `put 1 10; put 2 20`: the second put
evicts key 1, but the hash index still holds the binding `1 ↦ 0`. -/
def staleMap1 : LRUMap Nat Nat 1 :=
  { cache := { entries := [{ val := (2, 20), prev := 0, next := 0 }],
               head := 0, tail := 0 },
    indices := [(1, 0), (2, 0)] }

/-- A predicate on keys that matches everything. -/
def alwaysTrue : Nat → Bool := fun _ => true

/-! ## Claim theorems -/

/-- C1: the claim says that when `put` evicts at full capacity, the evicted
pair's key is removed from the hash index and afterwards `get` on the evicted
key returns `None`.  The code never removes the evicted key from the index:
at capacity 1, after `put 1 10; put 2 20` (which evicts key 1), the index
still binds key 1 to slot 0, and `get 1` returns `some 20` — the value now
stored for key 2 — instead of `none`.  (The evicted key is indeed no longer
yielded by `iterate`, but the index/`get` half of the claim fails.) -/
theorem c1_put_eviction_leaves_evicted_key_in_index :
    LRUMap.default Nat Nat 1 = some empty1 ∧
    putList [(1, 10), (2, 20)] empty1 = some staleMap1 ∧
    alistLookup staleMap1.indices 1 = some 0 ∧
    staleMap1.get 1 = some (some 20, staleMap1) ∧
    staleMap1.iterateKeys = [2] := by
  decide

/-- C2: the claim says the bidirectional index/slot consistency holds after
every mutating operation.  After the eviction of `put 2 20` on the full
capacity-1 map, the hash index still binds key 1 to slot 0, whose stored key
is 2, so the invariant is broken. -/
theorem c2_index_slot_consistency_broken_by_put :
    putList [(1, 10), (2, 20)] empty1 = some staleMap1 ∧
    alistLookup staleMap1.indices 1 = some 0 ∧
    (staleMap1.cache.entries.get? 0).map (fun e => e.val.1) = some 2 ∧
    IndexConsistentB staleMap1 = false := by
  decide

/-- C3: the claim says `len()` equals the number of occupied entries and
drops by one when `remove_one` removes a present key.  `Cache::remove` only
unlinks the slot — the backing `ArrayVec` never shrinks — so after
`put 1 10; remove_one 1` the list is empty (the key is gone from the hash
index) but `len()` is still 1, not 0.  (`remove_one` on an absent key is a
no-op, as the claim states.) -/
theorem c3_len_does_not_decrease_on_remove_one :
    ∃ m₁ m₂ : LRUMap Nat Nat 2,
      putList [(1, 10)] empty2 = some m₁ ∧
      m₁.len = 1 ∧
      m₁.remove_one 5 = some m₁ ∧
      m₁.remove_one 1 = some m₂ ∧
      alistLookup m₂.indices 1 = none ∧
      m₂.len = 1 := by
  refine ⟨{ cache := { entries := [{ val := (1, 10), prev := 0, next := 0 }],
                       head := 0, tail := 0 },
            indices := [(1, 0)] },
          { cache := { entries := [{ val := (1, 10), prev := 0, next := 0 }],
                       head := 0, tail := 0 },
            indices := [] }, ?_⟩
  decide

/-- C5: the claim bounds the number of hash-index entries by the capacity N.
The index is never pruned on eviction, so on the capacity-1 map two distinct
puts leave 2 bindings in the index. -/
theorem c5_index_grows_beyond_capacity :
    putList [(1, 10), (2, 20)] empty1 = some staleMap1 ∧
    staleMap1.indices.length = 2 ∧
    ¬ staleMap1.indices.length ≤ 1 := by
  decide

/-- C6: the claim says that after a `get` on a present key, that key is the
first one yielded by the next `iterate()`.  On the corrupted capacity-1
state, key 1 is still present in the hash index and `get 1` succeeds
(returning `some 20`), yet the next `iterate()` yields key 2 first. -/
theorem c6_get_does_not_bring_key_to_front :
    putList [(1, 10), (2, 20)] empty1 = some staleMap1 ∧
    staleMap1.get 1 = some (some 20, staleMap1) ∧
    staleMap1.iterateKeys = [2] ∧
    staleMap1.iterateKeys.head? ≠ some 1 := by
  decide

/-- C8: the claim says `remove(pred)` makes every matching key absent from
`iterate()`.  Removing the last element of the list leaves `head`/`tail`
pointing at the detached slot (and the entries array never shrinks), so after
`put 1 10; put 2 20; remove (fun _ => true)` the iterator still yields the
removed key 1. -/
theorem c8_remove_predicate_leaves_stale_iterate :
    ∃ mA mB : LRUMap Nat Nat 2,
      putList [(1, 10), (2, 20)] empty2 = some mA ∧
      mA.remove alwaysTrue = some mB ∧
      mB.indices = [] ∧
      alwaysTrue 1 = true ∧
      mB.iterateKeys = [1] := by
  refine ⟨{ cache := { entries := [{ val := (1, 10), prev := 1, next := 0 },
                                   { val := (2, 20), prev := 0, next := 0 }],
                       head := 1, tail := 0 },
            indices := [(1, 0), (2, 1)] },
          { cache := { entries := [{ val := (1, 10), prev := 1, next := 0 },
                                   { val := (2, 20), prev := 0, next := 0 }],
                       head := 0, tail := 0 },
            indices := [] }, ?_⟩
  decide

/-! ## Shape lemmas about the cache operations -/

/-- Setting a slot to an entry with the same value leaves all values
(as seen through `get?`) unchanged. -/
theorem valAt_set {T : Type} (l : List (Entry T)) (i : Nat) (e e' : Entry T)
    (he : l.get? i = some e) (hv : e'.val = e.val) (j : Nat) :
    ((l.set i e').get? j).map Entry.val = (l.get? j).map Entry.val := by
  by_cases hj : i = j
  · subst hj
    rw [List.get?_set_eq]
    rw [he]
    simp [hv]
  · rw [List.get?_set_ne _ _ hj]

/-- `pop_back` leaves the entries and the head untouched. -/
theorem popBack_shape {T : Type} {N : Nat} {c : Cache T N} {i : Nat}
    {c' : Cache T N} (h : c.popBack = some (i, c')) :
    c'.entries = c.entries ∧ c'.head = c.head ∧ i = c.tail := by
  unfold Cache.popBack at h
  rcases Option.bind_eq_some.mp h with ⟨e, _, h⟩
  simp only [Option.some_inj] at h
  cases h
  exact ⟨rfl, rfl, rfl⟩

/-- A successful `remove` keeps the length and every slot's value. -/
theorem remove_shape {T : Type} {N : Nat} {c : Cache T N} {idx : Nat}
    {c' : Cache T N} (h : c.remove idx = some c') :
    c'.entries.length = c.entries.length ∧
    (∀ j, (c'.entries.get? j).map Entry.val = (c.entries.get? j).map Entry.val) := by
  unfold Cache.remove at h
  rcases Option.bind_eq_some.mp h with ⟨e, he, h⟩
  rcases Option.bind_eq_some.mp h with ⟨c₁, hc₁, h₂⟩
  have step₁ : c₁.entries.length = c.entries.length ∧
      (∀ j, (c₁.entries.get? j).map Entry.val = (c.entries.get? j).map Entry.val) := by
    split at hc₁
    · cases Option.some_inj.mp hc₁
      exact ⟨rfl, fun j => rfl⟩
    · rcases Option.map_eq_some'.mp hc₁ with ⟨ep, hep, hc₁⟩
      cases hc₁.symm
      exact ⟨List.length_set _ _ _,
        fun j => valAt_set _ _ _ { ep with next := e.next } hep rfl j⟩
  have step₂ : c'.entries.length = c₁.entries.length ∧
      (∀ j, (c'.entries.get? j).map Entry.val = (c₁.entries.get? j).map Entry.val) := by
    split at h₂
    · cases Option.some_inj.mp h₂
      exact ⟨rfl, fun j => rfl⟩
    · rcases Option.map_eq_some'.mp h₂ with ⟨en, hen, h₂⟩
      cases h₂.symm
      exact ⟨List.length_set _ _ _,
        fun j => valAt_set _ _ _ { en with prev := e.prev } hen rfl j⟩
  exact ⟨step₂.1.trans step₁.1, fun j => (step₂.2 j).trans (step₁.2 j)⟩

/-- A successful `push_front` keeps the length and every slot's value. -/
theorem pushFront_shape {T : Type} {N : Nat} {c : Cache T N} {idx : Nat}
    {c' : Cache T N} (h : c.pushFront idx = some c') :
    c'.entries.length = c.entries.length ∧
    (∀ j, (c'.entries.get? j).map Entry.val = (c.entries.get? j).map Entry.val) := by
  unfold Cache.pushFront at h
  rcases Option.bind_eq_some.mp h with ⟨c₁, hc₁, h₂⟩
  simp only [Option.some_inj] at h₂
  cases h₂
  split at hc₁
  · cases Option.some_inj.mp hc₁
    exact ⟨rfl, fun j => rfl⟩
  · rcases Option.bind_eq_some.mp hc₁ with ⟨ei, hei, hc₁⟩
    rcases Option.map_eq_some'.mp hc₁ with ⟨eh, heh, hc₁⟩
    cases hc₁.symm
    refine ⟨by simp [List.length_set], fun j => ?_⟩
    calc (((c.entries.set idx { ei with next := c.head }).set c.head
            { eh with prev := idx }).get? j).map Entry.val
        = ((c.entries.set idx { ei with next := c.head }).get? j).map Entry.val :=
          valAt_set _ _ _ { eh with prev := idx } heh rfl j
      _ = (c.entries.get? j).map Entry.val :=
          valAt_set _ _ _ { ei with next := c.head } hei rfl j

/-- A successful `touch_index` keeps the length and every slot's value. -/
theorem touchIndex_shape {T : Type} {N : Nat} {c : Cache T N} {idx : Nat}
    {c' : Cache T N} (h : c.touchIndex idx = some c') :
    c'.entries.length = c.entries.length ∧
    (∀ j, (c'.entries.get? j).map Entry.val = (c.entries.get? j).map Entry.val) := by
  unfold Cache.touchIndex at h
  split at h
  · cases Option.some_inj.mp h
    exact ⟨rfl, fun j => rfl⟩
  · rcases Option.bind_eq_some.mp h with ⟨c₁, hc₁, h₂⟩
    have s₁ := remove_shape hc₁
    have s₂ := pushFront_shape h₂
    exact ⟨s₂.1.trans s₁.1, fun j => (s₂.2 j).trans (s₁.2 j)⟩

/-- A successful `replace` keeps the length and returns the value previously
stored at `idx`. -/
theorem replace_shape {T : Type} {N : Nat} {c : Cache T N} {idx : Nat}
    {v w : T} {c' : Cache T N} (h : c.replace idx v = some (w, c')) :
    c'.entries.length = c.entries.length ∧
    (c.entries.get? idx).map Entry.val = some w := by
  unfold Cache.replace at h
  rcases Option.bind_eq_some.mp h with ⟨c₁, hc₁, h₂⟩
  rcases Option.bind_eq_some.mp h₂ with ⟨e, he, h₃⟩
  simp only [Option.some_inj, Prod.mk.injEq] at h₃
  rcases h₃ with ⟨hw, hc⟩
  have s₁ := touchIndex_shape hc₁
  constructor
  · rw [← hc]
    simpa [List.length_set] using s₁.1
  · have hval := (s₁.2 idx).symm
    rw [he] at hval
    simp only [Option.map_some'] at hval
    rw [hval, hw]

/-- A successful `insert` below capacity appends one entry; at capacity it
keeps the length. -/
theorem insert_length {T : Type} {N : Nat} {c : Cache T N} {v : T}
    {c' : Cache T N} (h : c.insert v = some c') :
    (c.entries.length = N → c'.entries.length = N) ∧
    (c.entries.length ≠ N → c'.entries.length = c.entries.length + 1) := by
  unfold Cache.insert at h
  rcases Option.bind_eq_some.mp h with ⟨r, hr, h₂⟩
  have s₂ := pushFront_shape h₂
  split at hr
  · rcases Option.map_eq_some'.mp hr with ⟨p, hp, hr⟩
    cases hr.symm
    have sp := popBack_shape hp
    refine ⟨fun hN => ?_, fun hN => absurd (by assumption) hN⟩
    rw [s₂.1]
    simp only [List.length_set, sp.1]
    exact hN
  · cases Option.some_inj.mp hr
    refine ⟨fun hN => absurd hN (by assumption), fun _ => ?_⟩
    rw [s₂.1]
    simp

/-- `put` never pushes the backing array past the capacity. -/
theorem put_len_le {K T : Type} {N : Nat} [DecidableEq K]
    {m : LRUMap K T N} {k : K} {v : T} {r : Option T × LRUMap K T N}
    (h : m.put k v = some r) (hle : m.len ≤ N) : r.2.len ≤ N := by
  unfold LRUMap.put at h
  split at h
  · rcases Option.bind_eq_some.mp h with ⟨c, hc, h₂⟩
    simp only [Option.some_inj] at h₂
    cases h₂.symm
    have hi := insert_length hc
    by_cases hN : m.cache.entries.length = N
    · simpa [LRUMap.len, Cache.len] using Nat.le_of_eq (hi.1 hN)
    · have := hi.2 hN
      simp only [LRUMap.len, Cache.len] at hle ⊢
      omega
  · rcases Option.bind_eq_some.mp h with ⟨p, hp, h₂⟩
    simp only [Option.some_inj] at h₂
    cases h₂.symm
    obtain ⟨w, c⟩ := p
    have := (replace_shape hp).1
    simpa [LRUMap.len, Cache.len, this] using hle

/-- A whole sequence of puts keeps the backing array within capacity. -/
theorem putList_len_le {K T : Type} {N : Nat} [DecidableEq K] :
    ∀ (ps : List (K × T)) (m m' : LRUMap K T N),
      putList ps m = some m' → m.len ≤ N → m'.len ≤ N := by
  intro ps
  induction ps with
  | nil =>
    intro m m' h hle
    cases Option.some_inj.mp h
    exact hle
  | cons p rest ih =>
    intro m m' h hle
    obtain ⟨k, v⟩ := p
    unfold putList at h
    rcases Option.bind_eq_some.mp h with ⟨r, hr, h₂⟩
    exact ih r.2 m' h₂ (put_len_le hr hle)

/-- All link fields and (on a non-empty cache) `head`/`tail` are in range.
This holds in every state the operations can reach and is what rules the
panics out. -/
def CacheBounded {T : Type} {N : Nat} (c : Cache T N) : Prop :=
  (∀ e ∈ c.entries, e.prev < c.entries.length ∧ e.next < c.entries.length) ∧
  (c.entries.length ≠ 0 → c.head < c.entries.length ∧ c.tail < c.entries.length)

instance {T : Type} {N : Nat} (c : Cache T N) : Decidable (CacheBounded c) := by
  unfold CacheBounded
  infer_instance

/-- `remove` away from the head does not move the head. -/
theorem remove_head {T : Type} {N : Nat} {c : Cache T N} {idx : Nat}
    {c' : Cache T N} (h : c.remove idx = some c') (hne : idx ≠ c.head) :
    c'.head = c.head := by
  unfold Cache.remove at h
  rcases Option.bind_eq_some.mp h with ⟨e, _, h⟩
  rcases Option.bind_eq_some.mp h with ⟨c₁, hc₁, h₂⟩
  have h₁ : c₁.head = c.head := by
    split at hc₁
    · exact absurd (by assumption) hne
    · rcases Option.map_eq_some'.mp hc₁ with ⟨ep, _, hc₁⟩
      cases hc₁.symm
      rfl
  split at h₂
  · cases Option.some_inj.mp h₂
    exact h₁
  · rcases Option.map_eq_some'.mp h₂ with ⟨en, _, h₂⟩
    cases h₂.symm
    exact h₁

/-- On a bounded cache, `remove` at an in-range index succeeds. -/
theorem remove_isSome {T : Type} {N : Nat} {c : Cache T N} {idx : Nat}
    (hb : CacheBounded c) (hidx : idx < c.entries.length) :
    (c.remove idx).isSome := by
  obtain ⟨e, he⟩ : ∃ e, c.entries.get? idx = some e := ⟨_, List.get?_eq_get hidx⟩
  have hbe := hb.1 e (List.get?_mem he)
  unfold Cache.remove
  rw [he]
  simp only [Option.bind_eq_bind, Option.some_bind]
  obtain ⟨ep, hep⟩ : ∃ ep, c.entries.get? e.prev = some ep :=
    ⟨_, List.get?_eq_get hbe.1⟩
  have step₁ : ∃ c₁ : Cache T N,
      (if idx = c.head then some { c with head := e.next }
       else (c.entries.get? e.prev).map fun ep' =>
         { c with entries := c.entries.set e.prev { ep' with next := e.next } })
        = some c₁ ∧ c₁.entries.length = c.entries.length := by
    by_cases hh : idx = c.head
    · exact ⟨{ c with head := e.next }, by rw [if_pos hh], rfl⟩
    · refine ⟨{ c with entries :=
          c.entries.set e.prev { ep with next := e.next } }, ?_, ?_⟩
      · rw [if_neg hh, hep]
        rfl
      · simp [List.length_set]
  rcases step₁ with ⟨c₁, hc₁, hlen₁⟩
  rw [hc₁]
  simp only [Option.some_bind]
  by_cases ht : idx = c.tail
  · rw [if_pos ht]
    rfl
  · rw [if_neg ht]
    obtain ⟨en, hen⟩ : ∃ en, c₁.entries.get? e.next = some en :=
      ⟨_, List.get?_eq_get (by rw [hlen₁]; exact hbe.2)⟩
    rw [hen]
    rfl

/-- `push_front` succeeds when `idx` and the head are in range. -/
theorem pushFront_isSome {T : Type} {N : Nat} {c : Cache T N} {idx : Nat}
    (hidx : idx < c.entries.length) (hhead : c.head < c.entries.length) :
    (c.pushFront idx).isSome := by
  unfold Cache.pushFront
  simp only [Option.bind_eq_bind]
  by_cases h1 : c.entries.length = 1
  · rw [if_pos h1]
    rfl
  · rw [if_neg h1]
    obtain ⟨ei, hei⟩ : ∃ ei, c.entries.get? idx = some ei :=
      ⟨_, List.get?_eq_get hidx⟩
    rw [hei]
    simp only [Option.some_bind]
    obtain ⟨eh, heh⟩ : ∃ eh,
        (c.entries.set idx { ei with next := c.head }).get? c.head = some eh :=
      ⟨_, List.get?_eq_get (by simpa [List.length_set] using hhead)⟩
    rw [heh]
    rfl

/-- On a bounded cache, `touch_index` at an in-range index succeeds. -/
theorem touchIndex_isSome {T : Type} {N : Nat} {c : Cache T N} {idx : Nat}
    (hb : CacheBounded c) (hidx : idx < c.entries.length) :
    (c.touchIndex idx).isSome := by
  unfold Cache.touchIndex
  by_cases hh : idx = c.head
  · rw [if_pos hh]
    rfl
  · rw [if_neg hh]
    obtain ⟨c₂, hc₂⟩ := Option.isSome_iff_exists.mp (remove_isSome hb hidx)
    simp only [Option.bind_eq_bind, hc₂, Option.some_bind]
    have hlen := (remove_shape hc₂).1
    have hhead : c₂.head = c.head := remove_head hc₂ hh
    refine pushFront_isSome (by rw [hlen]; exact hidx) ?_
    rw [hlen, hhead]
    exact (hb.2 (by omega)).1

/-- The capacity-2 map holding only the binding `1 ↦ 10`. -/
def singleMap2 : LRUMap Nat Nat 2 :=
  { cache := { entries := [{ val := (1, 10), prev := 0, next := 0 }],
               head := 0, tail := 0 },
    indices := [(1, 0)] }

/-- C7: `put` on a key that is present in the hash index goes through
`Cache::replace`, which returns the value stored at the key's slot and
only rewrites that slot in place, so `put` returns `Some` of the previously
stored value and `len()` is unchanged. -/
theorem c7_put_existing_returns_old_value {K T : Type} [DecidableEq K]
    {N : Nat} (m : LRUMap K T N) (k : K) (v : T) (idx : Nat)
    (e : Entry (K × T))
    (hidx : alistLookup m.indices k = some idx)
    (he : m.cache.entries.get? idx = some e)
    (hkey : e.val.1 = k)
    (hb : CacheBounded m.cache) :
    ∃ m', m.put k v = some (some e.val.2, m') ∧ m'.len = m.len := by
  have hlt : idx < m.cache.entries.length := by
    rcases List.get?_eq_some.mp he with ⟨h, _⟩
    exact h
  obtain ⟨c₁, hc₁⟩ := Option.isSome_iff_exists.mp (touchIndex_isSome hb hlt)
  have hs := touchIndex_shape hc₁
  have hv : (c₁.entries.get? idx).map Entry.val = some e.val := by
    rw [hs.2 idx, he]
    rfl
  rcases Option.map_eq_some'.mp hv with ⟨e₁, he₁, hval₁⟩
  refine ⟨LRUMap.mk
      { c₁ with entries := c₁.entries.set idx { e₁ with val := (k, v) } }
      m.indices, ?_, ?_⟩
  · simp only [LRUMap.put, hidx, Cache.replace, Option.bind_eq_bind, hc₁,
      Option.some_bind, he₁, hval₁]
  · simp only [LRUMap.len, Cache.len, List.length_set]
    exact hs.1

/-- Witness for C7 at a concrete input: on the capacity-2 map holding
`1 ↦ 10`, `put 1 99` returns `some 10` and keeps `len()` at 1. -/
theorem c7_witness :
    ∃ m', singleMap2.put 1 99 = some (some 10, m') ∧
      m'.len = singleMap2.len :=
  c7_put_existing_returns_old_value singleMap2 1 99 0
    { val := (1, 10), prev := 0, next := 0 }
    (by decide) (by decide) (by decide) (by decide)

/-- Running the iterator to completion while threading the map through, the
way the Rust borrow does: `iter(&self)` only receives a shared reference, so
the map handed back is the map that was handed in. -/
def LRUMap.iterateRun {K T : Type} {N : Nat} (m : LRUMap K T N) :
    List (K × T) × LRUMap K T N :=
  (m.iterate, m)

/-- C9: `Cache::default` (and hence the derived `LRUMap::default`) asserts
`capacity < u16::MAX`: construction aborts exactly when `N ≥ 65535`, and for
every smaller `N` it produces the empty cache (no entries, nothing iterated,
empty hash index). -/
theorem c9_construction_capacity_check (K T : Type) (N : Nat) :
    ((LRUMap.default K T N).isSome ↔ N < 65535) ∧
    (∀ m : LRUMap K T N, LRUMap.default K T N = some m →
      m.len = 0 ∧ m.iterate = [] ∧ m.indices = []) := by
  constructor
  · unfold LRUMap.default Cache.default
    by_cases h : N < 65535 <;> simp [h]
  · intro m hm
    unfold LRUMap.default Cache.default at hm
    by_cases h : N < 65535
    · rw [if_pos h] at hm
      simp only [Option.map_some', Option.some_inj] at hm
      cases hm
      exact ⟨rfl, rfl, rfl⟩
    · rw [if_neg h] at hm
      cases hm

/-- Witness for C9 at `N = 4`: construction succeeds and gives the empty map. -/
theorem c9_witness :
    (LRUMap.default Nat Nat 4).isSome ∧
    ∀ m : LRUMap Nat Nat 4, LRUMap.default Nat Nat 4 = some m →
      m.len = 0 ∧ m.iterate = [] ∧ m.indices = [] :=
  ⟨((c9_construction_capacity_check Nat Nat 4).1).mpr (by decide),
   (c9_construction_capacity_check Nat Nat 4).2⟩

/-- C10: iteration is a pure read.  `iter(&self)` takes the map by shared
reference and the iterator only ever reads `entries`, `tail` and its own
cursor, so consuming it returns the map unchanged and a second iteration
yields the same sequence. -/
theorem c10_iterate_does_not_mutate {K T : Type} {N : Nat}
    (m : LRUMap K T N) :
    m.iterateRun.2 = m ∧
    m.iterateRun.2.iterateRun.1 = m.iterateRun.1 ∧
    m.iterateRun.1 = m.iterate :=
  ⟨rfl, rfl, rfl⟩

/-! ## The canonical state reached by a sequence of distinct-key puts

After putting `ps` (all keys distinct, at most `N` of them) into a fresh map,
slot `j` holds `ps[j]`, the recency order is the reverse insertion order
(head `= ps.length - 1`, tail `= 0`), each entry's `next` link is `j - 1` and
its `prev` link is `j + 1` — except the last slot, whose `prev` keeps the
value 0 it was created with (it is never read while the slot is the head). -/

/-- The entries of the canonical state: `m` is the total number of puts, `j`
the position of the first listed entry. -/
def canonEntriesFrom {K T : Type} (m : Nat) : Nat → List (K × T) →
    List (Entry (K × T))
  | _, [] => []
  | j, p :: rest =>
    { val := p, prev := if j + 1 = m then 0 else j + 1, next := j - 1 } ::
      canonEntriesFrom m (j + 1) rest

/-- The hash index of the canonical state: key of `ps[i]` bound to `j + i`. -/
def canonIndicesFrom {K T : Type} : Nat → List (K × T) → List (K × Nat)
  | _, [] => []
  | j, p :: rest => (p.1, j) :: canonIndicesFrom (j + 1) rest

/-- The canonical cache after the distinct puts `ps`. -/
def canonCache (K T : Type) (N : Nat) (ps : List (K × T)) : Cache (K × T) N :=
  { entries := canonEntriesFrom ps.length 0 ps,
    head := ps.length - 1, tail := 0 }

/-- The canonical map after the distinct puts `ps`. -/
def canonMap (K T : Type) (N : Nat) (ps : List (K × T)) : LRUMap K T N :=
  { cache := canonCache K T N ps, indices := canonIndicesFrom 0 ps }

theorem canonEntriesFrom_length {K T : Type} (m : Nat) :
    ∀ (j : Nat) (ps : List (K × T)),
      (canonEntriesFrom m j ps).length = ps.length := by
  intro j ps
  induction ps generalizing j with
  | nil => rfl
  | cons p rest ih => simp [canonEntriesFrom, ih]

theorem canonEntriesFrom_get? {K T : Type} (m : Nat) :
    ∀ (ps : List (K × T)) (j i : Nat),
      (canonEntriesFrom m j ps).get? i =
        (ps.get? i).map fun p =>
          { val := p, prev := if j + i + 1 = m then 0 else j + i + 1,
            next := j + i - 1 } := by
  intro ps
  induction ps with
  | nil => intro j i; cases i <;> rfl
  | cons p rest ih =>
    intro j i
    cases i with
    | zero => simp [canonEntriesFrom]
    | succ i =>
      simp only [canonEntriesFrom, List.get?_cons_succ]
      rw [ih (j + 1) i]
      have h₁ : j + 1 + i = j + (i + 1) := by omega
      rw [h₁]

theorem canonIndicesFrom_lookup_none {K T : Type} [DecidableEq K] {k : K} :
    ∀ (ps : List (K × T)) (j : Nat), k ∉ ps.map Prod.fst →
      alistLookup (canonIndicesFrom j ps) k = none := by
  intro ps
  induction ps with
  | nil => intro j _; rfl
  | cons p rest ih =>
    intro j hk
    simp only [List.map_cons, List.mem_cons, not_or] at hk
    simp only [canonIndicesFrom, alistLookup]
    rw [if_neg (fun h => hk.1 h.symm)]
    exact ih (j + 1) hk.2

theorem canonIndicesFrom_append {K T : Type} (q : K × T) :
    ∀ (ps : List (K × T)) (j : Nat),
      canonIndicesFrom j (ps ++ [q]) =
        canonIndicesFrom j ps ++ [(q.1, j + ps.length)] := by
  intro ps
  induction ps with
  | nil => intro j; rfl
  | cons p rest ih =>
    intro j
    show (p.1, j) :: canonIndicesFrom (j + 1) (rest ++ [q]) =
      (p.1, j) :: canonIndicesFrom (j + 1) rest ++ [(q.1, j + (p :: rest).length)]
    rw [ih (j + 1), List.length_cons]
    have h₁ : j + 1 + rest.length = j + (rest.length + 1) := by omega
    rw [h₁]
    rfl

theorem alistInsert_of_lookup_none {K : Type} [DecidableEq K] {k : K}
    (i : Nat) : ∀ l : List (K × Nat), alistLookup l k = none →
      alistInsert l k i = l ++ [(k, i)] := by
  intro l
  induction l with
  | nil => intro _; rfl
  | cons p rest ih =>
    intro hl
    simp only [alistLookup] at hl
    by_cases hpk : p.1 = k
    · rw [if_pos hpk] at hl
      cases hl
    · obtain ⟨k', i'⟩ := p
      simp only [alistInsert]
      simp only at hpk
      rw [if_neg hpk] at hl ⊢
      rw [ih hl]
      rfl

theorem putList_append {K T : Type} {N : Nat} [DecidableEq K]
    (xs : List (K × T)) :
    ∀ (ys : List (K × T)) (m : LRUMap K T N),
      putList (xs ++ ys) m = (putList xs m).bind fun m' => putList ys m' := by
  induction xs with
  | nil => intro ys m; rfl
  | cons x rest ih =>
    intro ys m
    obtain ⟨k, v⟩ := x
    simp only [List.cons_append, putList, Option.bind_eq_bind]
    cases m.put k v with
    | none => rfl
    | some r => simp [ih]

/-- Re-setting a position to the value it already holds is the identity. -/
theorem set_same {α : Type} (l : List α) (i : Nat) (a : α)
    (h : l.get? i = some a) : l.set i a = l := by
  apply List.ext_get?
  intro n
  by_cases hn : i = n
  · subst hn
    rw [List.get?_set_eq, h]
    rfl
  · rw [List.get?_set_ne _ _ hn]

/-- Inserting a fresh value while below capacity appends a new slot and links
it as the new head: the canonical state for `ps ++ [q]`. -/
theorem canonCache_insert_small {K T : Type} {N : Nat} (ps : List (K × T))
    (q : K × T) (hlt : ps.length < N) :
    (canonCache K T N ps).insert q = some (canonCache K T N (ps ++ [q])) := by
  rcases Nat.eq_zero_or_pos ps.length with hL | hL
  · have hps : ps = [] := List.length_eq_zero.mp hL
    subst hps
    unfold canonCache Cache.insert
    simp only [Option.bind_eq_bind]
    have hc0 : ¬((@canonEntriesFrom K T ([] : List (K × T)).length 0 []).length = N) := by
      simp only [canonEntriesFrom, List.length_nil]
      omega
    rw [if_neg hc0]
    rfl
  · have hlen : (canonEntriesFrom ps.length 0 ps).length = ps.length :=
      canonEntriesFrom_length _ 0 ps
    have hm : (ps ++ [q]).length = ps.length + 1 := by simp
    unfold canonCache Cache.insert
    simp only [Option.bind_eq_bind, hm]
    have hc1 : ¬((canonEntriesFrom ps.length 0 ps).length = N) := by
      rw [hlen]; omega
    rw [if_neg hc1]
    simp only [Option.some_bind, hlen]
    unfold Cache.pushFront
    simp only [Option.bind_eq_bind]
    have hc2 : ¬((canonEntriesFrom ps.length 0 ps ++
        [({ val := q, prev := 0, next := 0 } : Entry (K × T))]).length = 1) := by
      simp only [List.length_append, List.length_cons, List.length_nil, hlen]
      omega
    rw [if_neg hc2]
    have hq : ((canonEntriesFrom ps.length 0 ps) ++
        [({ val := q, prev := 0, next := 0 } : Entry (K × T))]).get? ps.length
        = some { val := q, prev := 0, next := 0 } := by
      rw [List.get?_append_right (by omega), hlen]
      simp
    rw [hq]
    simp only [Option.some_bind]
    have hset1 : ((canonEntriesFrom ps.length 0 ps) ++
        [({ val := q, prev := 0, next := 0 } : Entry (K × T))]).set ps.length
          { val := q, prev := 0, next := ps.length - 1 }
        = (canonEntriesFrom ps.length 0 ps) ++
          [{ val := q, prev := 0, next := ps.length - 1 }] := by
      rw [List.set_append_right _ _ (by omega), hlen]
      simp
    rw [hset1]
    obtain ⟨p, hp⟩ : ∃ p, ps.get? (ps.length - 1) = some p :=
      ⟨_, List.get?_eq_get (by omega)⟩
    have hc3 : 0 + (ps.length - 1) + 1 = ps.length := by omega
    have hq2 : ((canonEntriesFrom ps.length 0 ps) ++
        [({ val := q, prev := 0, next := ps.length - 1 } : Entry (K × T))]).get?
          (ps.length - 1)
        = some { val := p, prev := 0, next := 0 + (ps.length - 1) - 1 } := by
      rw [List.get?_append (by omega)]
      rw [canonEntriesFrom_get?, hp]
      simp only [Option.map_some']
      rw [if_pos hc3]
    rw [hq2]
    simp only [Option.map_some', Option.some_bind]
    refine congrArg some ?_
    have hset2 : ((canonEntriesFrom ps.length 0 ps) ++
        [({ val := q, prev := 0, next := ps.length - 1 } : Entry (K × T))]).set
          (ps.length - 1)
          { val := p, prev := ps.length, next := 0 + (ps.length - 1) - 1 }
        = ((canonEntriesFrom ps.length 0 ps).set (ps.length - 1)
            { val := p, prev := ps.length, next := 0 + (ps.length - 1) - 1 }) ++
          [{ val := q, prev := 0, next := ps.length - 1 }] :=
      List.set_append_left _ _ (by omega)
    rw [hset2]
    congr 1
    · apply List.ext_get?
      intro i
      rw [canonEntriesFrom_get?]
      by_cases h1 : i < ps.length - 1
      · obtain ⟨pi, hpi⟩ : ∃ pi, ps.get? i = some pi :=
          ⟨_, List.get?_eq_get (by omega)⟩
        rw [List.get?_append (by simp only [List.length_set, hlen]; omega)]
        rw [List.get?_set_ne _ _ (by omega)]
        rw [canonEntriesFrom_get?, hpi]
        rw [List.get?_append (by omega), hpi]
        simp only [Option.map_some']
        have hca : ¬(0 + i + 1 = ps.length) := by omega
        have hcb : ¬(0 + i + 1 = ps.length + 1) := by omega
        rw [if_neg hca, if_neg hcb]
      · by_cases h2 : i = ps.length - 1
        · subst h2
          rw [List.get?_append (by simp only [List.length_set, hlen]; omega)]
          rw [List.get?_set_eq_of_lt _ (by rw [hlen]; omega)]
          rw [List.get?_append (by omega), hp]
          simp only [Option.map_some']
          have hcb : ¬(0 + (ps.length - 1) + 1 = ps.length + 1) := by omega
          rw [if_neg hcb]
          congr 2
          omega
        · by_cases h3 : i = ps.length
          · subst h3
            rw [List.get?_append_right
              (by simp only [List.length_set, hlen]; omega)]
            rw [List.get?_append_right (by omega)]
            simp only [List.length_set, hlen, Nat.sub_self,
              List.get?_cons_zero, Option.map_some']
            have hcc : 0 + ps.length + 1 = ps.length + 1 := by omega
            rw [if_pos hcc]
            congr 2
            omega
          · rw [List.get?_eq_none.mpr (by
              simp only [List.length_append, List.length_set,
                List.length_cons, List.length_nil, hlen]
              omega)]
            rw [List.get?_eq_none.mpr (by
              simp only [List.length_append, List.length_cons, List.length_nil]
              omega)]
            rfl

/-- Inserting a fresh value at full capacity pops the tail slot (slot 0 of
the canonical state), overwrites it in place and relinks it as the head. -/
theorem canonCache_insert_full {K T : Type} {N : Nat} (ps : List (K × T))
    (q : K × T) (hN : ps.length = N) (hpos : 0 < ps.length) :
    (canonCache K T N ps).insert q =
      some { entries := (canonEntriesFrom ps.length 0 ps).set 0
               { val := q, prev := 0, next := ps.length - 1 },
             head := 0, tail := if ps.length = 1 then 0 else 1 } := by
  have hlen : (canonEntriesFrom ps.length 0 ps).length = ps.length :=
    canonEntriesFrom_length _ 0 ps
  obtain ⟨p0, hp0⟩ : ∃ p0, ps.get? 0 = some p0 :=
    ⟨_, List.get?_eq_get (by omega)⟩
  unfold canonCache Cache.insert
  simp only [Option.bind_eq_bind]
  rw [if_pos (hlen.trans hN)]
  unfold Cache.popBack
  simp only [Option.bind_eq_bind]
  have hget0 : (canonEntriesFrom ps.length 0 ps).get? 0 =
      some { val := p0, prev := if 1 = ps.length then 0 else 1, next := 0 } := by
    rw [canonEntriesFrom_get?, hp0]
    simp only [Option.map_some', Nat.zero_add, Nat.zero_sub]
  rw [hget0]
  simp only [Option.some_bind, Option.map_some', Option.some_bind]
  unfold Cache.pushFront
  simp only [Option.bind_eq_bind]
  by_cases hL1 : ps.length = 1
  · have hc1 : ((canonEntriesFrom ps.length 0 ps).set 0
        { val := q, prev := 0, next := 0 }).length = 1 := by
      rw [List.length_set, hlen]
      exact hL1
    rw [if_pos hc1]
    simp only [Option.some_bind]
    simp only [hL1]
    simp
  · have hc1 : ¬(((canonEntriesFrom ps.length 0 ps).set 0
        { val := q, prev := 0, next := 0 }).length = 1) := by
      simp only [List.length_set, hlen]
      omega
    rw [if_neg hc1]
    have hei : ((canonEntriesFrom ps.length 0 ps).set 0
        { val := q, prev := 0, next := 0 }).get? 0 =
        some { val := q, prev := 0, next := 0 } :=
      List.get?_set_eq_of_lt _ (by omega)
    rw [hei]
    simp only [Option.some_bind, List.set_set]
    obtain ⟨p1, hp1⟩ : ∃ p1, ps.get? (ps.length - 1) = some p1 :=
      ⟨_, List.get?_eq_get (by omega)⟩
    have hc3 : 0 + (ps.length - 1) + 1 = ps.length := by omega
    have heh : ((canonEntriesFrom ps.length 0 ps).set 0
        { val := q, prev := 0, next := ps.length - 1 }).get? (ps.length - 1) =
        some { val := p1, prev := 0, next := 0 + (ps.length - 1) - 1 } := by
      rw [List.get?_set_ne _ _ (by omega)]
      rw [canonEntriesFrom_get?, hp1]
      simp only [Option.map_some']
      rw [if_pos hc3]
    rw [heh]
    simp only [Option.map_some', Option.some_bind]
    refine congrArg some ?_
    have hsame : (((canonEntriesFrom ps.length 0 ps).set 0
        { val := q, prev := 0, next := ps.length - 1 }).set (ps.length - 1)
          { val := p1, prev := 0, next := 0 + (ps.length - 1) - 1 })
        = ((canonEntriesFrom ps.length 0 ps).set 0
            { val := q, prev := 0, next := ps.length - 1 }) :=
      set_same _ _ _ heh
    rw [hsame]
    have ht : (if 1 = ps.length then 0 else 1) = (if ps.length = 1 then 0 else 1) := by
      rw [if_neg (fun h => hL1 h.symm), if_neg hL1]
    rw [ht]

/-- The map-level state after the eviction put: the reused slot 0 holds the
new pair, and the hash index still contains the evicted key's binding
(appended with the new key's binding to slot 0). -/
def evictedMap (K T : Type) (N : Nat) (ps : List (K × T)) (q : K × T) :
    LRUMap K T N :=
  { cache := { entries := (canonEntriesFrom ps.length 0 ps).set 0
                 { val := q, prev := 0, next := ps.length - 1 },
               head := 0, tail := if ps.length = 1 then 0 else 1 },
    indices := canonIndicesFrom 0 ps ++ [(q.1, 0)] }

/-- `put` of a fresh key below capacity moves the canonical state forward. -/
theorem canonMap_put_fresh_small {K T : Type} [DecidableEq K] {N : Nat}
    (ps : List (K × T)) (k : K) (v : T)
    (hfresh : k ∉ ps.map Prod.fst) (hlt : ps.length < N) :
    (canonMap K T N ps).put k v =
      some (none, canonMap K T N (ps ++ [(k, v)])) := by
  have hl : alistLookup (canonIndicesFrom 0 ps) k = none :=
    canonIndicesFrom_lookup_none ps 0 hfresh
  unfold LRUMap.put canonMap
  simp only [hl]
  rw [canonCache_insert_small ps (k, v) hlt]
  simp only [Option.bind_eq_bind, Option.some_bind]
  refine congrArg some ?_
  refine congrArg (Prod.mk none) ?_
  congr 1
  rw [alistInsert_of_lookup_none _ _ hl]
  rw [canonIndicesFrom_append]
  congr 2
  unfold canonCache
  simp

/-- `put` of a fresh key at full capacity produces the evicted state. -/
theorem canonMap_put_fresh_full {K T : Type} [DecidableEq K] {N : Nat}
    (ps : List (K × T)) (k : K) (v : T)
    (hfresh : k ∉ ps.map Prod.fst) (hN : ps.length = N) (hpos : 0 < ps.length) :
    (canonMap K T N ps).put k v = some (none, evictedMap K T N ps (k, v)) := by
  have hl : alistLookup (canonIndicesFrom 0 ps) k = none :=
    canonIndicesFrom_lookup_none ps 0 hfresh
  unfold LRUMap.put canonMap
  simp only [hl]
  rw [canonCache_insert_full ps (k, v) hN hpos]
  simp only [Option.bind_eq_bind, Option.some_bind]
  refine congrArg some ?_
  refine congrArg (Prod.mk none) ?_
  unfold evictedMap
  congr 1
  rw [alistInsert_of_lookup_none _ _ hl]

/-- A sequence of at most `N` distinct-key puts from the fresh map reaches
exactly the canonical state. -/
theorem putList_canon {K T : Type} [DecidableEq K] {N : Nat} :
    ∀ ps : List (K × T), (ps.map Prod.fst).Nodup → ps.length ≤ N →
      putList ps (canonMap K T N []) = some (canonMap K T N ps) := by
  intro ps
  induction ps using List.reverseRecOn with
  | nil => intro _ _; rfl
  | append_singleton qs q ih =>
    intro hnd hlenq
    have hlen2 : qs.length + 1 ≤ N := by simpa using hlenq
    rw [List.map_append] at hnd
    have h := List.nodup_append.mp hnd
    have hfresh : q.1 ∉ qs.map Prod.fst := fun hmem =>
      (h.2.2 hmem) (by simp)
    rw [putList_append]
    rw [ih h.1 (by omega)]
    simp only [Option.some_bind]
    obtain ⟨k, v⟩ := q
    simp only [putList, Option.bind_eq_bind]
    rw [canonMap_put_fresh_small qs k v hfresh (by omega)]
    simp [putList]

/-- Walking the canonical chain from slot `t` with `t + 1` steps of fuel
yields the first `t + 1` pairs in reverse order (slot `t` down to slot 0). -/
theorem iterFuel_canon {K T : Type} {N : Nat} (ps : List (K × T)) (hd : Nat) :
    ∀ t fuel, t < ps.length → fuel = t + 1 →
      iterFuel (Cache.mk (canonEntriesFrom ps.length 0 ps) hd 0 :
          Cache (K × T) N) fuel { pos := t }
        = (ps.take (t + 1)).reverse := by
  intro t
  induction t with
  | zero =>
    intro fuel ht hfuel
    subst hfuel
    obtain ⟨p0, hp0⟩ : ∃ p0, ps.get? 0 = some p0 :=
      ⟨_, List.get?_eq_get ht⟩
    have hp0g : ps[0]? = some p0 := by
      rw [← List.get?_eq_getElem?]
      exact hp0
    simp only [iterFuel, Iter.next, Option.bind_eq_bind]
    rw [canonEntriesFrom_get?, hp0]
    simp only [Option.map_some', Option.some_bind]
    rw [List.take_succ, hp0g]
    simp
  | succ t iht =>
    intro fuel ht hfuel
    subst hfuel
    obtain ⟨pt, hpt⟩ : ∃ pt, ps.get? (t + 1) = some pt :=
      ⟨_, List.get?_eq_get ht⟩
    have hptg : ps[t + 1]? = some pt := by
      rw [← List.get?_eq_getElem?]
      exact hpt
    have hnx : Iter.next (Cache.mk (canonEntriesFrom ps.length 0 ps) hd 0 :
        Cache (K × T) N) { pos := t + 1 } = some (pt, { pos := t }) := by
      simp only [Iter.next, Option.bind_eq_bind]
      rw [canonEntriesFrom_get?, hpt]
      simp only [Option.map_some', Option.some_bind]
      rw [if_neg (Nat.succ_ne_zero t)]
      have hnext : 0 + (t + 1) - 1 = t := by omega
      rw [hnext]
    rw [iterFuel, hnx]
    show pt :: iterFuel (Cache.mk (canonEntriesFrom ps.length 0 ps) hd 0 :
        Cache (K × T) N) (t + 1) { pos := t } = (ps.take (t + 1 + 1)).reverse
    rw [iht (t + 1) (by omega) rfl]
    conv_rhs => rw [List.take_succ, hptg]
    simp

/-- The canonical state iterates in reverse insertion order. -/
theorem canonCache_iterate {K T : Type} {N : Nat} (ps : List (K × T)) :
    (canonCache K T N ps).iterate = ps.reverse := by
  unfold Cache.iterate Cache.iter canonCache
  rcases Nat.eq_zero_or_pos ps.length with hL | hL
  · have hps : ps = [] := List.length_eq_zero.mp hL
    subst hps
    rfl
  · have hlen : (canonEntriesFrom ps.length 0 ps).length = ps.length :=
      canonEntriesFrom_length _ 0 ps
    rw [hlen]
    rw [iterFuel_canon ps (ps.length - 1) (ps.length - 1) ps.length
      (by omega) (by omega)]
    have hfull : ps.length - 1 + 1 = ps.length := by omega
    rw [hfull, List.take_length]

/-- Walking the evicted chain from slot `t ≥ 1` with `t` steps of fuel yields
pairs `ps[t], …, ps[1]` (the walk stops at the new tail, slot 1). -/
theorem iterFuel_evicted {K T : Type} {N : Nat} (ps : List (K × T)) (q : K × T) :
    ∀ t fuel, 1 ≤ t → t < ps.length → fuel = t →
      iterFuel (Cache.mk ((canonEntriesFrom ps.length 0 ps).set 0
          { val := q, prev := 0, next := ps.length - 1 }) 0 1 :
          Cache (K × T) N) fuel { pos := t }
        = ((ps.drop 1).take t).reverse := by
  intro t
  induction t with
  | zero => intro fuel h1 _ _; omega
  | succ t iht =>
    intro fuel _ ht hfuel
    subst hfuel
    obtain ⟨pt, hpt⟩ : ∃ pt, ps.get? (t + 1) = some pt :=
      ⟨_, List.get?_eq_get ht⟩
    have hptd : (ps.drop 1).get? t = some pt := by
      rw [List.get?_drop]
      have hc : 1 + t = t + 1 := by omega
      rw [hc]
      exact hpt
    have hptdg : (ps.drop 1)[t]? = some pt := by
      rw [← List.get?_eq_getElem?]
      exact hptd
    have hget : (((canonEntriesFrom ps.length 0 ps).set 0
        { val := q, prev := 0, next := ps.length - 1 })).get? (t + 1) =
        some { val := pt, prev := if 0 + (t + 1) + 1 = ps.length then 0
                 else 0 + (t + 1) + 1, next := 0 + (t + 1) - 1 } := by
      rw [List.get?_set_ne _ _ (by omega)]
      rw [canonEntriesFrom_get?, hpt]
      rfl
    rcases Nat.eq_zero_or_pos t with ht0 | ht0
    · subst ht0
      rw [iterFuel]
      have hnx : Iter.next (Cache.mk ((canonEntriesFrom ps.length 0 ps).set 0
          { val := q, prev := 0, next := ps.length - 1 }) 0 1 :
          Cache (K × T) N) { pos := 1 } = some (pt, { pos := N }) := by
        simp only [Iter.next, Option.bind_eq_bind]
        rw [hget]
        simp only [Option.map_some', Option.some_bind]
        rfl
      rw [hnx]
      show [pt] = ((ps.drop 1).take 1).reverse
      rw [List.take_succ, hptdg]
      simp
    · rw [iterFuel]
      have hnx : Iter.next (Cache.mk ((canonEntriesFrom ps.length 0 ps).set 0
          { val := q, prev := 0, next := ps.length - 1 }) 0 1 :
          Cache (K × T) N) { pos := t + 1 } = some (pt, { pos := t }) := by
        simp only [Iter.next, Option.bind_eq_bind]
        rw [hget]
        simp only [Option.map_some', Option.some_bind]
        rw [if_neg (by omega)]
        have hnext : 0 + (t + 1) - 1 = t := by omega
        rw [hnext]
      rw [hnx]
      show pt :: iterFuel (Cache.mk ((canonEntriesFrom ps.length 0 ps).set 0
          { val := q, prev := 0, next := ps.length - 1 }) 0 1 :
          Cache (K × T) N) t { pos := t }
        = ((ps.drop 1).take (t + 1)).reverse
      rw [iht t (by omega) (by omega) rfl]
      conv_rhs => rw [List.take_succ, hptdg]
      simp

/-- After the eviction, iteration yields the new pair first, then the
surviving pairs in order — the evicted slot-0 pair is gone. -/
theorem evictedMap_iterate {K T : Type} {N : Nat} (ps : List (K × T))
    (q : K × T) (hpos : 0 < ps.length) :
    (evictedMap K T N ps q).cache.iterate = q :: (ps.drop 1).reverse := by
  have hlen : (canonEntriesFrom ps.length 0 ps).length = ps.length :=
    canonEntriesFrom_length _ 0 ps
  have hflen : (((canonEntriesFrom ps.length 0 ps) : List (Entry (K × T))).set 0
      { val := q, prev := 0, next := ps.length - 1 }).length = ps.length := by
    rw [List.length_set, hlen]
  have hq0 : (((canonEntriesFrom ps.length 0 ps) : List (Entry (K × T))).set 0
      { val := q, prev := 0, next := ps.length - 1 }).get? 0 =
      some { val := q, prev := 0, next := ps.length - 1 } :=
    List.get?_set_eq_of_lt _ (by omega)
  unfold evictedMap Cache.iterate Cache.iter
  simp only
  rw [hflen]
  by_cases hL1 : ps.length = 1
  · rw [if_pos hL1]
    have key : ∀ fuel, fuel = ps.length →
        iterFuel (Cache.mk ((canonEntriesFrom ps.length 0 ps).set 0
            { val := q, prev := 0, next := ps.length - 1 }) 0 0 :
            Cache (K × T) N) fuel { pos := 0 }
          = q :: (ps.drop 1).reverse := by
      intro fuel hf
      have hdnil : ps.drop 1 = [] := by
        apply List.drop_eq_nil_of_le
        omega
      rw [hdnil]
      match fuel, hf with
      | 0, hf => exact absurd hf.symm (by omega)
      | fuel + 1, hf =>
        rw [iterFuel]
        have hnx : Iter.next (Cache.mk ((canonEntriesFrom ps.length 0 ps).set 0
            { val := q, prev := 0, next := ps.length - 1 }) 0 0 :
            Cache (K × T) N) { pos := 0 } = some (q, { pos := N }) := by
          simp only [Iter.next, Option.bind_eq_bind]
          rw [hq0]
          simp only [Option.map_some', Option.some_bind]
          rfl
        rw [hnx]
        show q :: iterFuel (Cache.mk ((canonEntriesFrom ps.length 0 ps).set 0
            { val := q, prev := 0, next := ps.length - 1 }) 0 0 :
            Cache (K × T) N) fuel { pos := N } = [q]
        have hfuel0 : fuel = 0 := by omega
        subst hfuel0
        rfl
    exact key ps.length rfl
  · rw [if_neg hL1]
    have key : ∀ fuel, fuel = ps.length →
        iterFuel (Cache.mk ((canonEntriesFrom ps.length 0 ps).set 0
            { val := q, prev := 0, next := ps.length - 1 }) 0 1 :
            Cache (K × T) N) fuel { pos := 0 }
          = q :: (ps.drop 1).reverse := by
      intro fuel hf
      match fuel, hf with
      | 0, hf => exact absurd hf.symm (by omega)
      | fuel + 1, hf =>
        rw [iterFuel]
        have hnx : Iter.next (Cache.mk ((canonEntriesFrom ps.length 0 ps).set 0
            { val := q, prev := 0, next := ps.length - 1 }) 0 1 :
            Cache (K × T) N) { pos := 0 } =
            some (q, { pos := ps.length - 1 }) := by
          simp only [Iter.next, Option.bind_eq_bind]
          rw [hq0]
          simp only [Option.map_some', Option.some_bind]
          rw [if_neg (by omega)]
        rw [hnx]
        show q :: iterFuel (Cache.mk ((canonEntriesFrom ps.length 0 ps).set 0
            { val := q, prev := 0, next := ps.length - 1 }) 0 1 :
            Cache (K × T) N) fuel { pos := ps.length - 1 }
          = q :: (ps.drop 1).reverse
        rw [iterFuel_evicted ps q (ps.length - 1) fuel (by omega) (by omega)
          (by omega)]
        have hdlen : (ps.drop 1).length = ps.length - 1 := by
          rw [List.length_drop]
        rw [← hdlen, List.take_length]
    exact key ps.length rfl

/-- A successful construction yields exactly the canonical state of the
empty history. -/
theorem default_eq_canonMap {K T : Type} [DecidableEq K] {N : Nat}
    {m₀ : LRUMap K T N} (h : LRUMap.default K T N = some m₀) :
    m₀ = canonMap K T N [] := by
  unfold LRUMap.default Cache.default at h
  by_cases hN : N < 65535
  · rw [if_pos hN] at h
    simp only [Option.map_some', Option.some_inj] at h
    rw [← h]
    rfl
  · rw [if_neg hN] at h
    cases h

/-- Dropping the last element of a reversed list drops its head. -/
theorem reverse_dropLast {α : Type} (l : List α) :
    l.reverse.dropLast = (l.drop 1).reverse := by
  cases l with
  | nil => rfl
  | cons a t =>
    rw [List.reverse_cons, List.dropLast_concat]
    rfl

/-- C4: for distinct-key put sequences from a fresh map, `len()` never
exceeds N; and the put of the (N+1)-th distinct key returns `None`, evicts
exactly the least-recently-put key (the last one yielded by `iterate()`,
which is the first key of the sequence) and no other: the next `iterate()`
yields the new key first, followed by all previously held keys except that
least-recently-used one, in unchanged order. -/
theorem c4_capacity_bound_and_lru_eviction (K T : Type) [DecidableEq K]
    (N : Nat) :
    (∀ (ps : List (K × T)) (m₀ m : LRUMap K T N),
        LRUMap.default K T N = some m₀ → (ps.map Prod.fst).Nodup →
        putList ps m₀ = some m → m.len ≤ N) ∧
    (∀ (ps : List (K × T)) (k : K) (v : T) (m₀ m : LRUMap K T N),
        LRUMap.default K T N = some m₀ → (ps.map Prod.fst).Nodup →
        k ∉ ps.map Prod.fst → ps.length = N → 0 < N →
        putList ps m₀ = some m →
        ∃ m' : LRUMap K T N, m.put k v = some (none, m') ∧
          m.iterateKeys = (ps.map Prod.fst).reverse ∧
          m.iterateKeys.getLast? = (ps.map Prod.fst).head? ∧
          m'.iterateKeys = k :: m.iterateKeys.dropLast ∧
          m'.len ≤ N) := by
  constructor
  · intro ps m₀ m hdef _ hput
    have h₀ : m₀ = canonMap K T N [] := default_eq_canonMap hdef
    subst h₀
    exact putList_len_le ps _ m hput (by simp [LRUMap.len, Cache.len, canonMap,
      canonCache, canonEntriesFrom])
  · intro ps k v m₀ m hdef hnd hfresh hN hpos hput
    have h₀ : m₀ = canonMap K T N [] := default_eq_canonMap hdef
    subst h₀
    rw [putList_canon ps hnd (le_of_eq hN)] at hput
    have hm : m = canonMap K T N ps := (Option.some_inj.mp hput).symm
    subst hm
    have hpos' : 0 < ps.length := by omega
    have hcc : (canonMap K T N ps).cache = canonCache K T N ps := rfl
    refine ⟨evictedMap K T N ps (k, v), ?_, ?_, ?_, ?_, ?_⟩
    · exact canonMap_put_fresh_full ps k v hfresh hN hpos'
    · show (canonMap K T N ps).cache.iterate.map Prod.fst = _
      rw [hcc, canonCache_iterate, List.map_reverse]
    · show ((canonMap K T N ps).cache.iterate.map Prod.fst).getLast? = _
      rw [hcc, canonCache_iterate, List.map_reverse, List.getLast?_reverse]
    · show (evictedMap K T N ps (k, v)).cache.iterate.map Prod.fst = _
      rw [evictedMap_iterate ps (k, v) hpos']
      show k :: ((ps.drop 1).reverse.map Prod.fst) = _
      conv_rhs => rw [show (canonMap K T N ps).iterateKeys
        = (canonMap K T N ps).cache.iterate.map Prod.fst from rfl]
      rw [hcc, canonCache_iterate]
      simp only [List.map_reverse, reverse_dropLast, List.map_drop]
    · show ((canonEntriesFrom ps.length 0 ps).set 0
        { val := (k, v), prev := 0, next := ps.length - 1 }).length ≤ N
      rw [List.length_set, canonEntriesFrom_length]
      omega

/-- The state after `put 1 10; put 2 20` on a fresh capacity-2 map. -/
def pairMap2 : LRUMap Nat Nat 2 :=
  { cache := { entries := [{ val := (1, 10), prev := 1, next := 0 },
                           { val := (2, 20), prev := 0, next := 0 }],
               head := 1, tail := 0 },
    indices := [(1, 0), (2, 1)] }

/-- Witness for C4 at `N = 2`, the sequence `put 1 10; put 2 20` and the
third distinct key 3: the eviction hits key 1 (the LRU) and nothing else. -/
theorem c4_witness :
    pairMap2.len ≤ 2 ∧
    ∃ m' : LRUMap Nat Nat 2, pairMap2.put 3 30 = some (none, m') ∧
      pairMap2.iterateKeys = ([(1, 10), (2, 20)].map Prod.fst).reverse ∧
      pairMap2.iterateKeys.getLast? = ([(1, 10), (2, 20)].map Prod.fst).head? ∧
      m'.iterateKeys = 3 :: pairMap2.iterateKeys.dropLast ∧
      m'.len ≤ 2 :=
  ⟨(c4_capacity_bound_and_lru_eviction Nat Nat 2).1 [(1, 10), (2, 20)]
      { cache := { entries := [], head := 0, tail := 0 }, indices := [] }
      pairMap2 (by decide) (by decide) (by decide),
   (c4_capacity_bound_and_lru_eviction Nat Nat 2).2 [(1, 10), (2, 20)] 3 30
      { cache := { entries := [], head := 0, tail := 0 }, indices := [] }
      pairMap2 (by decide) (by decide) (by decide) (by decide) (by decide)
      (by decide)⟩
